import Mathlib

/-!
Shallow embedding of the chunking and retrieval-fusion pipeline of the
Bibliotheca AI repository (files `src/chunking.py` and `src/agent_tools.py`),
together with proofs settling the frozen claims about it.

Conventions of the embedding:
* Python strings are Lean `String`s; when character-level scanning matters the
  functions work on `List Char` (`String.toList`).
* Python `str.split()` (no argument), `str.strip()`, slicing `xs[a:b]` and the
  whitespace class of the regex module are modelled by `pyWords`, `pyStrip`,
  `pySlice` and `isPyWs` below (ASCII whitespace, which is what the code is
  exercised with).
* `uuid.uuid4()` is modelled by a natural-number counter threaded through the
  chunk constructors: each call yields a fresh identifier, which is the only
  property of UUIDs the code relies on.
* The whiles in `_token_split` / `_ensure_child_size` do not terminate for
  every configuration (see claim C10), so they are embedded with an explicit
  fuel argument; `none` means the fuel was exhausted, i.e. the Python loop has
  not finished within that many iterations.
* External collaborators (the sentence-embedding model, the vector store, the
  knowledge graph) are passed in as explicit function parameters, mirroring the
  spec's decision to treat them as opaque capabilities.
-/

/-- Python's whitespace class (`\s` of `re`, `str.split()/strip()` default),
restricted to ASCII: space, tab, newline, carriage return, vertical tab,
form feed. -/
def isPyWs (c : Char) : Bool :=
  c = ' ' || c = '\t' || c = '\n' || c = '\r' || c = '\x0b' || c = '\x0c'

/-- Maximal runs of non-whitespace characters, as `String`s: the model of
Python `str.split()` with no separator argument. The first argument is the
reversed run of non-whitespace characters read so far. -/
def wordsAux (acc : List Char) : List Char → List String
  | [] => if acc.isEmpty then [] else [String.mk acc.reverse]
  | c :: cs =>
    if isPyWs c then
      (if acc.isEmpty then [] else [String.mk acc.reverse]) ++ wordsAux [] cs
    else wordsAux (c :: acc) cs

/-- Model of Python `text.split()`. -/
def pyWords (s : String) : List String :=
  wordsAux [] s.toList

/-- Strip ASCII whitespace from both ends of a character list. -/
def stripChars (cs : List Char) : List Char :=
  ((cs.dropWhile isPyWs).reverse.dropWhile isPyWs).reverse

/-- Model of Python `str.strip()` with no argument. -/
def pyStrip (s : String) : String :=
  String.mk (stripChars s.toList)

/-- Model of Python list slicing `l[a:b]` with possibly negative indices. -/
def pySlice {α : Type} (l : List α) (a b : Int) : List α :=
  let n : Int := l.length
  let i : Nat := (if a < 0 then max (n + a) 0 else min a n).toNat
  let j : Nat := (if b < 0 then max (n + b) 0 else min b n).toNat
  (l.drop i).take (j - i)

/-- Character-list prefix test (executable). -/
def isPrefixChars : List Char → List Char → Bool
  | [], _ => true
  | _ :: _, [] => false
  | a :: as, b :: bs => a = b && isPrefixChars as bs

/-- Does `sub` occur as a contiguous run starting at some position of `s`? -/
def containsAt (sub : List Char) : List Char → Bool
  | [] => sub.isEmpty
  | c :: rest => isPrefixChars sub (c :: rest) || containsAt sub rest

/-- Model of the Python substring test `sub in s`. -/
def containsSub (s sub : String) : Bool :=
  containsAt sub.toList s.toList

/-- Model of Python `str.lower()` (per-character lowercasing; the keyword
lists are ASCII or caseless Korean, for which this matches CPython). -/
def pyLower (s : String) : String :=
  String.mk (s.toList.map Char.toLower)

/-- Python `" ".join(parts)`. -/
def joinSp (parts : List String) : String :=
  String.intercalate " " parts

/-- The chunking-relevant fields of `config.Settings`
(`src/config.py`), with their defaults. -/
structure Settings where
  chunk_size_search : Nat := 300
  chunk_size_parent : Nat := 900
  chunk_overlap : Nat := 50
  semantic_threshold : Float := 0.75

/-- The `Chunk` dataclass of `src/chunking.py`. `chunk_id`/`parent_id` are the
natural-number model of UUID strings; the open `metadata` dict field (always
left empty by `chunk_document`) is omitted. -/
structure Chunk where
  text : String
  chunk_id : Nat := 0
  parent_id : Option Nat := none
  source_file : String := ""
  page_num : Option Int := none
  chapter : String := ""
  sect : String := ""
  is_parent : Bool := false
  context_prefix : String := ""
deriving DecidableEq, Repr

/-- One element of the list returned by `ChunkingEngine._split_by_structure`:
the dict `{"text": ..., "chapter": ..., "section": ...}`. -/
structure StructSection where
  text : String
  chapter : String
  sect : String
deriving DecidableEq, Repr

/-- The document-level metadata keys read by `chunk_document` and
`_generate_context_prefix` out of the `metadata` dict argument. -/
structure DocMetadata where
  source_file : String := ""
  page_num : Option Int := none
  book_title : String := ""
  author : String := ""

/-- One attempted match of the multiline regex `^(#{1,4})\s+(.+)$` of
`_split_by_structure` at a line-start position. Returns
`(level, raw title characters, characters after the match)` on success.
The greedy `\s+` may swallow newlines; when the whitespace run reaches the end
of the text the engine backtracks one character so that `(.+)` can match, which
is reproduced by the second branch. -/
def tryMatch (cs : List Char) : Option (Nat × List Char × List Char) :=
  let r := (cs.takeWhile (· = '#')).length
  if 1 ≤ r ∧ r ≤ 4 then
    let after := cs.dropWhile (· = '#')
    let w0 := after.takeWhile isPyWs
    let rem0 := after.dropWhile isPyWs
    if w0 = [] then none
    else if rem0 = [] then
      match w0.reverse.dropWhile (· = '\n') with
      | c :: _ :: _ => some (r, [c], (w0.reverse.takeWhile (· = '\n')).reverse)
      | _ => none
    else
      some (r, rem0.takeWhile (· ≠ '\n'), rem0.dropWhile (· ≠ '\n'))
  else none

/-- Prepend a character to the gap before the first header match
(or to the trailing text when no further match exists): helper for the
`finditer` scan below. -/
def consGap (c : Char) :
    List (List Char × Nat × List Char) × List Char →
      List (List Char × Nat × List Char) × List Char
  | ((pre, lvl, title) :: ms, tail) => ((c :: pre, lvl, title) :: ms, tail)
  | ([], tail) => ([], c :: tail)

/-- Model of `header_pattern.finditer(text)` as used by `_split_by_structure`:
scans the text once, returning for each match the gap text since the previous
match end, the header level and the raw title, plus the text after the last
match. The boolean tracks whether the current position is a line start (where
the multiline `^` may match); `skip` counts characters of the current match
still to be consumed (a match is recognized in full by `tryMatch` when its
first character is reached, and never overlaps a later match since `finditer`
resumes at the match end). A match always ends immediately after a
non-newline character, so scanning resumes with the flag cleared. -/
def scanGo : List Char → Bool → Nat → List (List Char × Nat × List Char) × List Char
  | [], _, _ => ([], [])
  | c :: cs, _, skip + 1 => scanGo cs (c = '\n') skip
  | c :: cs, atLineStart, 0 =>
    if atLineStart then
      match tryMatch (c :: cs) with
      | some (lvl, title, rest) =>
        let matchLen := (c :: cs).length - rest.length
        let other := scanGo cs (c = '\n') (matchLen - 1)
        (([], lvl, title) :: other.1, other.2)
      | none => consGap c (scanGo cs (c = '\n') 0)
    else consGap c (scanGo cs (c = '\n') 0)

/-- The finditer scan, started at a line start outside any match. -/
def scanText (cs : List Char) (atLineStart : Bool) :
    List (List Char × Nat × List Char) × List Char :=
  scanGo cs atLineStart 0

/-- The section-building loop of `_split_by_structure`: walks the matches,
emitting the stripped gap before each header when non-blank, updating the
chapter/section labels (level 1 sets the chapter and resets the section,
levels 2–4 set the section), and finally emitting the stripped trailing
text when non-blank. -/
def buildSections :
    List (List Char × Nat × List Char) → List Char → String → String →
      List StructSection
  | [], tail, ch, se =>
    let rem := pyStrip (String.mk tail)
    if rem = "" then [] else [⟨rem, ch, se⟩]
  | (pre, lvl, title) :: ms, tail, ch, se =>
    let preS := pyStrip (String.mk pre)
    let t := pyStrip (String.mk title)
    let next := if lvl = 1 then buildSections ms tail t "" else buildSections ms tail ch t
    if preS = "" then next else ⟨preS, ch, se⟩ :: next

/-- The sections accumulated by `_split_by_structure` before its final
no-headers fallback. -/
def rawSections (text : String) : List StructSection :=
  let (ms, tail) := scanText text.toList true
  buildSections ms tail "" ""

/-- The characters of the input that are *not* part of any header match, in
order: the concatenation of the inter-match gaps and the trailing text of the
scan. -/
def headerGaps (text : String) : List Char :=
  let (ms, tail) := scanText text.toList true
  (ms.map (fun m => m.1)).flatten ++ tail

/-- `ChunkingEngine._split_by_structure`. -/
def splitByStructure (text : String) : List StructSection :=
  let secs := rawSections text
  if secs = [] then [⟨text, "", ""⟩] else secs

/-- Sentence-end test of `_split_sentences`: the lookbehind `(?<=[.!?])` of
`re.split(r"(?<=[.!?])\s+", text)`, applied to the reversed current piece. -/
def sentEnd : List Char → Bool
  | p :: _ => p = '.' || p = '!' || p = '?'
  | [] => false

/-- The scan of `re.split(r"(?<=[.!?])\s+", text)`: a maximal whitespace run
immediately preceded by `.`, `!` or `?` separates pieces. `sep` records being
inside a separator run (so its remaining whitespace is consumed), `revCur` is
the current piece, reversed. -/
def sentencePieces (sep : Bool) (revCur : List Char) : List Char → List (List Char)
  | [] => [revCur.reverse]
  | c :: rest =>
    if sep && isPyWs c then sentencePieces true revCur rest
    else if isPyWs c && sentEnd revCur then
      revCur.reverse :: sentencePieces true [] rest
    else sentencePieces false (c :: revCur) rest

/-- `ChunkingEngine._split_sentences`. -/
def splitSentences (text : String) : List String :=
  ((sentencePieces false [] text.toList).map (fun cs => pyStrip (String.mk cs))).filter
    (fun s => s ≠ "")

/-- The accumulation loop of `_merge_by_similarity`: `sim i` is the cosine
similarity between sentences `i-1` and `i` (the dot product of the normalized
embeddings, an external capability). -/
def mergeGo (sim : Nat → Float) (threshold : Float) :
    List String → List String → Nat → List String
  | [], current, _ => [joinSp current]
  | s :: rest, current, i =>
    if threshold ≤ sim i then mergeGo sim threshold rest (current ++ [s]) (i + 1)
    else joinSp current :: mergeGo sim threshold rest [s] (i + 1)

/-- `ChunkingEngine._merge_by_similarity` (only ever called with at least two
sentences; on `[]` the Python would raise on `sentences[0]`, the `[]` case
here is dead code). -/
def mergeBySimilarity (sentences : List String) (sim : Nat → Float)
    (threshold : Float) : List String :=
  match sentences with
  | [] => []
  | s0 :: rest => mergeGo sim threshold rest [s0] 1

/-- The `while start < len(words)` loop shared by `_token_split` and
`_ensure_child_size`, with an explicit iteration budget: `none` means the
budget was exhausted (the Python loop is still running after `fuel`
iterations). `start` is an `int` exactly as in Python, since the update
`start = end - overlap` can go negative. -/
def splitWindows (c o : Nat) (words : List String) : Nat → Int → Option (List (List String))
  | fuel, start =>
    let n : Int := words.length
    if start < n then
      match fuel with
      | 0 => none
      | fuel + 1 =>
        let e : Int := min (start + (c : Int)) n
        let window := pySlice words start e
        let start' : Int := if e < n then e - (o : Int) else e
        (splitWindows c o words fuel start').map (fun L => window :: L)
    else some []

/-- `ChunkingEngine._token_split` (word-count fallback splitter). The word
count of the input also serves as the iteration budget, which is sufficient
whenever `o < c` (claim C10). -/
def tokenSplit (c o : Nat) (text : String) : Option (List String) :=
  let ws := pyWords text
  if ws.length ≤ c then some [text]
  else (splitWindows c o ws ws.length 0).map (List.map joinSp)

/-- `ChunkingEngine._ensure_child_size`: textually the same loop as
`_token_split`. -/
def ensureChildSize (c o : Nat) (text : String) : Option (List String) :=
  let ws := pyWords text
  if ws.length ≤ c then some [text]
  else (splitWindows c o ws ws.length 0).map (List.map joinSp)

/-- `ChunkingEngine._semantic_split`. The sentence-embedding model is an
external capability: `simOracle = some sim` models a loaded model (`sim
sentences i` being the similarity of consecutive sentences `i-1`, `i`),
`simOracle = none` models the unavailable/failing model, in which case the
code falls back to `_token_split`. -/
def semanticSplit (s : Settings) (simOracle : Option (List String → Nat → Float))
    (text : String) : Option (List String) :=
  let sentences := splitSentences text
  if sentences.length ≤ 1 then
    some (if sentences.isEmpty then [text] else sentences)
  else
    match simOracle with
    | some sim => some (mergeBySimilarity sentences (sim sentences) s.semantic_threshold)
    | none => tokenSplit s.chunk_size_search s.chunk_overlap text

/-- The grouping loop of `_create_parent_child`: accumulate segments into
parent-sized groups by running word count. -/
def groupGo (parentSize : Nat) : List String → List String → Nat → List (List String)
  | [], current, _ => if current = [] then [] else [current]
  | seg :: rest, current, cwc =>
    let sw := (pyWords seg).length
    if parentSize < cwc + sw ∧ current ≠ [] then
      current :: groupGo parentSize rest [seg] sw
    else groupGo parentSize rest (current ++ [seg]) (cwc + sw)

/-- Group segments into parent-sized blocks (`_create_parent_child`, step 1). -/
def groupSegments (parentSize : Nat) (segments : List String) : List (List String) :=
  groupGo parentSize segments [] 0

/-- Turn the window texts of one segment into child chunks, threading the
fresh-id counter. -/
def chunksFromTexts (pid : Nat) (src : String) (page : Option Int)
    (chapter se : String) : List String → Nat → List Chunk × Nat
  | [], ctr => ([], ctr)
  | t :: ts, ctr =>
    let (rest, ctr') := chunksFromTexts pid src page chapter se ts (ctr + 1)
    ({ text := t, chunk_id := ctr, parent_id := some pid, source_file := src,
       page_num := page, chapter := chapter, sect := se, is_parent := false } :: rest,
     ctr')

/-- Child chunks of all segments of one parent group
(`_create_parent_child`, inner loop). -/
def mkChildren (s : Settings) (pid : Nat) (src : String) (page : Option Int)
    (chapter se : String) : List String → Nat → Option (List Chunk × Nat)
  | [], ctr => some ([], ctr)
  | seg :: rest, ctr => do
    let parts ← ensureChildSize s.chunk_size_search s.chunk_overlap seg
    let (cs, ctr1) := chunksFromTexts pid src page chapter se parts ctr
    let (cs2, ctr2) ← mkChildren s pid src page chapter se rest ctr1
    some (cs ++ cs2, ctr2)

/-- Parent and child chunks of the parent groups
(`_create_parent_child`, step 2). -/
def processGroups (s : Settings) (src : String) (page : Option Int)
    (chapter se : String) : List (List String) → Nat → Option (List Chunk × Nat)
  | [], ctr => some ([], ctr)
  | g :: gs, ctr => do
    let parent : Chunk :=
      { text := joinSp g, chunk_id := ctr, parent_id := none, source_file := src,
        page_num := page, chapter := chapter, sect := se, is_parent := true }
    let (cs, ctr1) ← mkChildren s ctr src page chapter se g (ctr + 1)
    let (rest, ctr2) ← processGroups s src page chapter se gs ctr1
    some (parent :: (cs ++ rest), ctr2)

/-- `ChunkingEngine._create_parent_child`. -/
def createParentChild (s : Settings) (segments : List String) (src : String)
    (page : Option Int) (chapter se : String) (ctr : Nat) :
    Option (List Chunk × Nat) :=
  processGroups s src page chapter se (groupSegments s.chunk_size_parent segments) ctr

/-- `ChunkingEngine._generate_context_prefix`. Note the author clause is
nested inside the `if book_title:` branch, exactly as in the source. -/
def generateContextPrefix (chunk : Chunk) (md : DocMetadata) : String :=
  let parts : List String :=
    (if md.book_title ≠ "" then
      ["From '" ++ md.book_title ++ "'"] ++
        (if md.author ≠ "" then ["by " ++ md.author] else [])
     else []) ++
    (if chunk.chapter ≠ "" then ["in chapter '" ++ chunk.chapter ++ "'"] else []) ++
    (if chunk.sect ≠ "" then ["section '" ++ chunk.sect ++ "'"] else []) ++
    (match chunk.page_num with
     | some n => ["(page " ++ toString n ++ ")"]
     | none => [])
  if parts = [] then "" else joinSp parts ++ ". "

/-- The per-section loop of `chunk_document`: semantic split, parent-child
hierarchy, context prefixes, concatenated in document order. -/
def processSections (s : Settings) (simOracle : Option (List String → Nat → Float))
    (md : DocMetadata) : List StructSection → Nat → Option (List Chunk)
  | [], _ => some []
  | sec :: rest, ctr =>
    if pyStrip sec.text = "" then processSections s simOracle md rest ctr
    else do
      let segments ← semanticSplit s simOracle sec.text
      let (pc, ctr') ← createParentChild s segments md.source_file md.page_num
        sec.chapter sec.sect ctr
      let tail ← processSections s simOracle md rest ctr'
      some (pc.map (fun c => { c with context_prefix := generateContextPrefix c md }) ++ tail)

/-- `ChunkingEngine.chunk_document`: the main entry point. -/
def chunkDocument (s : Settings) (simOracle : Option (List String → Nat → Float))
    (text : String) (md : DocMetadata) : Option (List Chunk) :=
  if pyStrip text = "" then some []
  else processSections s simOracle md (splitByStructure text) 0

/-- `_COMPARISON_KEYWORDS` of `src/agent_tools.py`. -/
def comparisonKeywords : List String :=
  ["compare", "comparison", "vs", "versus", "difference", "differ",
   "contrast", "similar", "unlike", "비교", "차이", "다른"]

/-- `_CONCEPT_KEYWORDS` of `src/agent_tools.py`. -/
def conceptKeywords : List String :=
  ["explain", "what is", "define", "definition", "concept", "theory",
   "의미", "개념", "설명", "정의"]

/-- `_FACTUAL_KEYWORDS` of `src/agent_tools.py`. -/
def factualKeywords : List String :=
  ["who", "when", "where", "how many", "which year", "누가", "언제", "어디"]

/-- `QueryEngine._classify_query`. The for-loops with early return are the
three `List.any` tests in priority order. -/
def classifyQuery (q : String) : String :=
  let ql := pyLower q
  if comparisonKeywords.any (fun kw => containsSub ql kw) then "cross_book_comparison"
  else if conceptKeywords.any (fun kw => containsSub ql kw) then "concept_explanation"
  else if factualKeywords.any (fun kw => containsSub ql kw) then "fact_lookup"
  else if 8 < (pyWords q).length then "concept_explanation"
  else "fact_lookup"

/-- The `SearchResult` dataclass of `src/agent_tools.py`. -/
structure SearchResult where
  text : String
  score : Float
  source_file : String
  book_title : String := ""
  chapter : String := ""
  sect : String := ""
  page_num : Option Int := none

/-- A raw retrieval record (LanceDB row dict) with the keys the query engine
reads; `dist` is the `_distance` key (lower is more similar). A missing
`_distance` key reads as `0.0`, a missing `parent_id` as `""`, a missing
`is_parent` as false, exactly as the `.get` defaults in the source. -/
structure RawRecord where
  text : String := ""
  dist : Float := 0.0
  source_file : String := ""
  book_title : String := ""
  chapter : String := ""
  sect : String := ""
  page_num : Option Int := none
  parent_id : String := ""
  is_parent : Bool := false

/-- `QueryEngine._to_search_result`. -/
def toSearchResult (r : RawRecord) : SearchResult :=
  { text := r.text,
    score := 1.0 - r.dist,
    source_file := r.source_file,
    book_title := r.book_title,
    chapter := r.chapter,
    sect := r.sect,
    page_num :=
      match r.page_num with
      | some p => if p ≠ 0 then some p else none
      | none => none }

/-- The `QueryResponse` dataclass of `src/agent_tools.py`. -/
structure QueryResponse where
  answer : String
  sources : List SearchResult
  query_type : String := ""

/-- The loop of `QueryEngine._expand_parents`, instrumented: walks
`zip(search_results, raw_results)` with the `seen_parents` cache (an
association list of `parent_id` to cached `get_parent` answer) and also
records, in order, every `parent_id` actually sent to the parent store.
`getParent` is the external `db.get_parent` capability; a `some` answer is a
found (truthy) record, `none` is a miss. -/
def expandGo (getParent : String → Option RawRecord) :
    List SearchResult → List RawRecord → List (String × Option RawRecord) →
      List String → List SearchResult × List String
  | [], _, _, log => ([], log.reverse)
  | _ :: _, [], _, log => ([], log.reverse)
  | sr :: srs, raw :: raws, seen, log =>
    if raw.parent_id ≠ "" ∧ raw.is_parent = false then
      let seen' :=
        if (seen.lookup raw.parent_id).isNone then
          (raw.parent_id, getParent raw.parent_id) :: seen
        else seen
      let log' :=
        if (seen.lookup raw.parent_id).isNone then raw.parent_id :: log else log
      let sr' :=
        match seen'.lookup raw.parent_id with
        | some (some p) =>
          { text := p.text ++ "\n---\n" ++ sr.text, score := sr.score,
            source_file := sr.source_file, book_title := sr.book_title,
            chapter := sr.chapter, sect := sr.sect, page_num := sr.page_num }
        | _ => sr
      let rec1 := expandGo getParent srs raws seen' log'
      (sr' :: rec1.1, rec1.2)
    else
      let rec1 := expandGo getParent srs raws seen log
      (sr :: rec1.1, rec1.2)

/-- `QueryEngine._expand_parents`: the expanded result list. -/
def expandParents (getParent : String → Option RawRecord)
    (srs : List SearchResult) (raws : List RawRecord) : List SearchResult :=
  (expandGo getParent srs raws [] []).1

/-- The ordered list of distinct `parent_id`s `_expand_parents` sends to the
parent store during one call. -/
def expandQueries (getParent : String → Option RawRecord)
    (srs : List SearchResult) (raws : List RawRecord) : List String :=
  (expandGo getParent srs raws [] []).2

/-- The `while vi < len(vector_results) or gi < len(graph_results)` loop of
`QueryEngine._merge_results`, on the remaining (not yet emitted) suffixes of
the two lists: each round emits up to 3 vector results then up to 1 graph
result. -/
def mergeRound (V G : List SearchResult) : List SearchResult :=
  if V.isEmpty && G.isEmpty then []
  else V.take 3 ++ G.take 1 ++ mergeRound (V.drop 3) (G.drop 1)
termination_by V.length + G.length
decreasing_by
  rename_i h
  rcases V with - | ⟨v, V⟩ <;> rcases G with - | ⟨g, G⟩ <;>
    simp_all [List.length_drop] <;> omega

/-- `QueryEngine._merge_results`. -/
def mergeResults (V G : List SearchResult) : List SearchResult :=
  match G with
  | [] => V
  | _ :: _ => mergeRound V G

/-- `QueryEngine.query`. The external collaborators are parameters:
`hybridSearch` is `self.db.hybrid_search` composed with
`self.embedder.embed_query` (and the fixed `filters`), `getParent` is
`self.db.get_parent`, and `graphAug` is `_graph_augment` (whose output is
entirely determined by the external knowledge-graph store). -/
def query (hybridSearch : String → Nat → List RawRecord)
    (getParent : String → Option RawRecord)
    (graphAug : String → List SearchResult)
    (query_text : String) (top_k : Nat) : QueryResponse :=
  let query_type := classifyQuery query_text
  let results := hybridSearch query_text top_k
  let search_results := results.map toSearchResult
  let expanded := expandParents getParent search_results results
  let final :=
    if query_type = "concept_explanation" ∨ query_type = "cross_book_comparison" then
      mergeResults expanded (graphAug query_text)
    else expanded
  { answer := "", sources := final.take top_k, query_type := query_type }

/-- The non-whitespace characters of a character list, in order. -/
def nonWsChars (cs : List Char) : List Char :=
  cs.filter (fun c => !isPyWs c)

/-- The context prefix as described by the (amended) spec sentence: a flat
clause list in which the `by <author>` clause requires both a non-empty title
and a non-empty author, clauses with empty sources are omitted, and the result
is the space-joined clauses plus `". "`, or `""` when no clause applies.
Written from the spec's words, to be compared with `generateContextPrefix`
(which is translated from the source). -/
def specContextPrefix (chunk : Chunk) (md : DocMetadata) : String :=
  let parts : List String :=
    (if md.book_title ≠ "" then ["From '" ++ md.book_title ++ "'"] else []) ++
    (if md.book_title ≠ "" ∧ md.author ≠ "" then ["by " ++ md.author] else []) ++
    (if chunk.chapter ≠ "" then ["in chapter '" ++ chunk.chapter ++ "'"] else []) ++
    (if chunk.sect ≠ "" then ["section '" ++ chunk.sect ++ "'"] else []) ++
    (match chunk.page_num with
     | some n => ["(page " ++ toString n ++ ")"]
     | none => [])
  if parts = [] then "" else joinSp parts ++ ". "

/-- The pointwise description of one step of `_expand_parents`, in terms of
the raw `get_parent` capability (no cache). -/
def expandStep (gp : String → Option RawRecord) (p : SearchResult × RawRecord) :
    SearchResult :=
  if p.2.parent_id ≠ "" ∧ p.2.is_parent = false then
    match gp p.2.parent_id with
    | some parent =>
      { text := parent.text ++ "\n---\n" ++ p.1.text, score := p.1.score,
        source_file := p.1.source_file, book_title := p.1.book_title,
        chapter := p.1.chapter, sect := p.1.sect, page_num := p.1.page_num }
    | none => p.1
  else p.1

/-- Concrete parent store used in the C4 witness. -/
def c4gp : String → Option RawRecord :=
  fun pid => if pid = "p1" then some { text := "PT" } else none

/-- Concrete child search result used in the C4 witness. -/
def c4srs : List SearchResult :=
  [{ text := "C", score := 0.5, source_file := "f" }]

/-- Concrete raw records used in the C4 witness. -/
def c4raws : List RawRecord :=
  [{ parent_id := "p1" }]

/-- The parent-child referential invariant of claim C2: parents carry no
`parent_id`, every child's `parent_id` is the `chunk_id` of a parent chunk in
the same list. -/
def chunkProp (l : List Chunk) : Prop :=
  ∀ ch ∈ l, (ch.is_parent = true → ch.parent_id = none) ∧
    (ch.is_parent = false →
      ∃ p ∈ l, p.is_parent = true ∧ ch.parent_id = some p.chunk_id)

/-- The chunk list produced for the document `"hello world"` with default
settings, no embedding model and empty metadata: one parent, one child. -/
def c2chunks : List Chunk :=
  [{ text := "hello world", chunk_id := 0, parent_id := none, is_parent := true },
   { text := "hello world", chunk_id := 1, parent_id := some 0, is_parent := false }]

/-- The child chunk of `c2chunks`. -/
def c2child : Chunk :=
  { text := "hello world", chunk_id := 1, parent_id := some 0, is_parent := false }

/-! ### Lemmas about the string primitives -/

theorem filter_nonws_dropWhile (l : List Char) :
    (l.dropWhile isPyWs).filter (fun c => !isPyWs c) = l.filter (fun c => !isPyWs c) := by
  induction l with
  | nil => simp
  | cons c l ih =>
    by_cases h : isPyWs c
    · simp [List.dropWhile_cons, h, List.filter_cons, ih]
    · simp [List.dropWhile_cons, h, List.filter_cons]

theorem filter_nonws_stripChars (cs : List Char) :
    (stripChars cs).filter (fun c => !isPyWs c) = cs.filter (fun c => !isPyWs c) := by
  unfold stripChars
  rw [List.filter_reverse, filter_nonws_dropWhile, List.filter_reverse,
    List.reverse_reverse, filter_nonws_dropWhile]

theorem stripChars_eq_rdrop (cs : List Char) :
    stripChars cs = (cs.dropWhile isPyWs).rdropWhile isPyWs := rfl

theorem dropWhile_stripChars (cs : List Char) :
    (stripChars cs).dropWhile isPyWs = stripChars cs := by
  rw [stripChars_eq_rdrop]
  rcases h : (cs.dropWhile isPyWs).rdropWhile isPyWs with - | ⟨a, l⟩
  · simp
  · have hpre : (a :: l) <+: cs.dropWhile isPyWs := h ▸ List.rdropWhile_prefix _ _
    have hhead : (cs.dropWhile isPyWs).head? = some a := by
      rcases hpre with ⟨t, ht⟩
      rw [← ht]; rfl
    have hnot : ¬ isPyWs a = true := by
      intro ha
      have h2 := List.dropWhile_idempotent (l := cs) (p := isPyWs)
      rcases h3 : cs.dropWhile isPyWs with - | ⟨b, m⟩
      · simp [h3] at hhead
      · rw [h3] at hhead h2
        simp only [List.head?_cons, Option.some.injEq] at hhead
        rw [List.dropWhile_cons, hhead, if_pos ha] at h2
        have := congrArg List.length h2
        simp at this
        have := List.length_le_of_sublist (List.dropWhile_sublist (l := m) (p := isPyWs))
        omega
    simp [List.dropWhile_cons, hnot]

theorem stripChars_idem (cs : List Char) :
    stripChars (stripChars cs) = stripChars cs := by
  conv_lhs => rw [stripChars_eq_rdrop, dropWhile_stripChars, stripChars_eq_rdrop,
    List.rdropWhile_idempotent, ← stripChars_eq_rdrop]

theorem toList_pyStrip (s : String) : (pyStrip s).toList = stripChars s.toList := rfl

theorem pyStrip_idem (s : String) : pyStrip (pyStrip s) = pyStrip s := by
  unfold pyStrip
  rw [show (String.mk (stripChars s.toList)).toList = stripChars s.toList from rfl,
    stripChars_idem]

theorem pyStrip_eq_empty_iff (s : String) :
    pyStrip s = "" ↔ ∀ c ∈ s.toList, isPyWs c := by
  have hmk : pyStrip s = "" ↔ stripChars s.toList = [] := by
    constructor
    · intro h; exact congrArg String.data h
    · intro h; unfold pyStrip; rw [h]
  rw [hmk, stripChars_eq_rdrop, List.rdropWhile_eq_nil_iff]
  constructor
  · intro h c hc
    by_contra hn
    have : c ∈ s.toList.dropWhile isPyWs := by
      by_contra hmem
      have := List.takeWhile_append_dropWhile (p := isPyWs) (l := s.toList)
      rw [← this] at hc
      rcases List.mem_append.mp hc with h1 | h1
      · exact hn (List.mem_takeWhile_imp h1)
      · exact hmem h1
    exact hn (h c this)
  · intro h c hc
    exact h c ((List.dropWhile_suffix isPyWs).subset hc)

/-! ### Claim C7: context prefix generation -/

/-- C7, counterexample: with an empty book title but a non-empty author the
generated prefix is empty — the `by <author>` clause does *not* appear
"whenever the author value is non-empty, regardless of the other values",
because in the source it is nested inside the `if book_title:` branch. -/
theorem claim_C7_counterexample :
    generateContextPrefix { text := "" } { author := "Jane Doe" } = "" ∧
    ({ author := "Jane Doe" } : DocMetadata).author ≠ "" ∧
    containsSub (generateContextPrefix { text := "" } { author := "Jane Doe" })
      "Jane Doe" = false := by
  refine ⟨rfl, by decide, by decide⟩

/-- C7 (amended): the generated context prefix is the clause string
`"From '<title>' by <author> in chapter '<chapter>' section '<section>'
(page <n>). "` with every clause whose source value is empty omitted, where
the `by <author>` clause appears exactly when both the book title and the
author are non-empty; it is the empty string when no clause applies. On
book title `"Test Book"`, author `"Jane Doe"`, chapter `"Introduction"` and
no page it contains both names and no page clause. -/
theorem claim_C7_amended :
    (∀ (c : Chunk) (md : DocMetadata),
      generateContextPrefix c md = specContextPrefix c md) ∧
    generateContextPrefix { text := "", chapter := "Introduction" }
        { book_title := "Test Book", author := "Jane Doe" } =
      "From 'Test Book' by Jane Doe in chapter 'Introduction'. " ∧
    containsSub (generateContextPrefix { text := "", chapter := "Introduction" }
      { book_title := "Test Book", author := "Jane Doe" }) "Test Book" = true ∧
    containsSub (generateContextPrefix { text := "", chapter := "Introduction" }
      { book_title := "Test Book", author := "Jane Doe" }) "Jane Doe" = true ∧
    containsSub (generateContextPrefix { text := "", chapter := "Introduction" }
      { book_title := "Test Book", author := "Jane Doe" }) "(page" = false := by
  refine ⟨fun c md => ?_, by decide, by decide, by decide, by decide⟩
  unfold generateContextPrefix specContextPrefix
  by_cases h1 : md.book_title = "" <;> by_cases h2 : md.author = "" <;>
    simp [h1, h2]

/-! ### Claim C9: raw-record conversion and top-k truncation -/

/-- C9: converting a raw retrieval record sets `score = 1 - _distance`;
`page_num` becomes `none` exactly when the raw page number is missing or `0`
and is kept otherwise; and `query` returns at most `top_k` sources. -/
theorem claim_C9 :
    (∀ r : RawRecord, (toSearchResult r).score = 1.0 - r.dist) ∧
    (∀ r : RawRecord,
      ((toSearchResult r).page_num = none ↔ (r.page_num = none ∨ r.page_num = some 0))) ∧
    (∀ (r : RawRecord) (p : Int), p ≠ 0 → r.page_num = some p →
      (toSearchResult r).page_num = some p) ∧
    (∀ (hybridSearch : String → Nat → List RawRecord)
      (getParent : String → Option RawRecord)
      (graphAug : String → List SearchResult) (query_text : String) (top_k : Nat),
      (query hybridSearch getParent graphAug query_text top_k).sources.length ≤ top_k) := by
  refine ⟨fun r => rfl, fun r => ?_, fun r p hp hr => ?_, fun hs gp ga qt k => ?_⟩
  · unfold toSearchResult
    rcases r.page_num with - | p
    · simp
    · by_cases h : p = 0 <;> simp [h]
  · unfold toSearchResult
    rw [hr]
    simp [hp]
  · unfold query
    simp only
    exact List.length_take_le _ _

/-- C9, witness: a record at distance `0.25` with raw page `5` keeps page `5`,
and a one-record search truncated to `top_k = 10` returns at most 10 sources. -/
theorem claim_C9_witness :
    (toSearchResult { page_num := some 5, dist := 0.25 }).page_num = some 5 ∧
    (query (fun _ _ => [{ page_num := some 5 }]) (fun _ => none) (fun _ => [])
      "q" 10).sources.length ≤ 10 :=
  ⟨claim_C9.2.2.1 { page_num := some 5, dist := 0.25 } 5 (by decide) rfl,
   claim_C9.2.2.2 _ _ _ "q" 10⟩

/-! ### Claim C5: query classification -/

/-- C5: classification is a case-insensitive substring match against the three
keyword lists in priority order (comparison, then concept, then factual), with
the token-count fallback (`> 8` whitespace-separated tokens ⇒ concept, else
fact lookup); in particular a query matching both comparison and concept
keywords is classified `cross_book_comparison`. -/
theorem claim_C5 :
    (∀ q : String,
      classifyQuery q =
        if ∃ kw ∈ comparisonKeywords, containsSub (pyLower q) kw = true then
          "cross_book_comparison"
        else if ∃ kw ∈ conceptKeywords, containsSub (pyLower q) kw = true then
          "concept_explanation"
        else if ∃ kw ∈ factualKeywords, containsSub (pyLower q) kw = true then
          "fact_lookup"
        else if 8 < (pyWords q).length then "concept_explanation"
        else "fact_lookup") ∧
    (∀ q : String,
      (∃ kw ∈ comparisonKeywords, containsSub (pyLower q) kw = true) →
      (∃ kw ∈ conceptKeywords, containsSub (pyLower q) kw = true) →
      classifyQuery q = "cross_book_comparison") := by
  have hmain : ∀ q : String,
      classifyQuery q =
        if ∃ kw ∈ comparisonKeywords, containsSub (pyLower q) kw = true then
          "cross_book_comparison"
        else if ∃ kw ∈ conceptKeywords, containsSub (pyLower q) kw = true then
          "concept_explanation"
        else if ∃ kw ∈ factualKeywords, containsSub (pyLower q) kw = true then
          "fact_lookup"
        else if 8 < (pyWords q).length then "concept_explanation"
        else "fact_lookup" := by
    intro q
    unfold classifyQuery
    simp only [List.any_eq_true]
  refine ⟨hmain, fun q h1 h2 => ?_⟩
  rw [hmain q, if_pos h1]

/-- C5, witness: `"compare the concept"` matches both a comparison keyword
(`"compare"`) and a concept keyword (`"concept"`) and is classified as a
cross-book comparison. -/
theorem claim_C5_witness :
    classifyQuery "compare the concept" = "cross_book_comparison" :=
  claim_C5.2 "compare the concept" (by decide) (by decide)

/-! ### Claim C3: merge of vector and graph results -/

theorem mergeRound_nil_right (V : List SearchResult) : mergeRound V [] = V := by
  rw [mergeRound.eq_def]
  rcases V with - | ⟨v, V'⟩
  · rfl
  · have ih := mergeRound_nil_right (V'.drop 2)
    simp only [List.isEmpty_cons, List.isEmpty_nil, Bool.false_and, Bool.false_eq_true,
      if_false, List.drop_nil, List.take_nil, List.drop_succ_cons, List.take_succ_cons,
      List.nil_append, List.append_nil, ih]
    have := List.take_append_drop 2 V'
    simp [this]
termination_by V.length
decreasing_by simp [List.length_drop]; omega

theorem mergeResults_rounds (V G : List SearchResult) :
    mergeResults V G = V.take 3 ++ G.take 1 ++ mergeResults (V.drop 3) (G.drop 1) := by
  rcases G with - | ⟨g, G'⟩
  · show V = _
    simp only [List.take_nil, List.drop_nil, List.append_nil]
    show V = V.take 3 ++ V.drop 3
    rw [List.take_append_drop]
  · rcases G' with - | ⟨g2, G''⟩
    · show mergeRound V [g] = _
      rw [mergeRound.eq_def]
      simp only [List.isEmpty_cons, Bool.and_false]
      rw [if_neg Bool.false_ne_true]
      show V.take 3 ++ [g].take 1 ++ mergeRound (V.drop 3) [] =
        V.take 3 ++ [g].take 1 ++ (V.drop 3)
      rw [mergeRound_nil_right]
    · show mergeRound V (g :: g2 :: G'') = _
      rw [mergeRound.eq_def]
      simp only [List.isEmpty_cons, Bool.and_false]
      rw [if_neg Bool.false_ne_true]
      rfl

theorem mergeResults_perm (V G : List SearchResult) :
    (mergeResults V G).Perm (V ++ G) := by
  by_cases h : V = [] ∧ G = []
  · obtain ⟨h1, h2⟩ := h
    subst h1; subst h2
    exact List.Perm.refl _
  · have hlt : (V.drop 3).length + (G.drop 1).length < V.length + G.length := by
      rcases V with - | ⟨v, V'⟩ <;> rcases G with - | ⟨g, G'⟩ <;>
        simp_all [List.length_drop] <;> omega
    have ih := mergeResults_perm (V.drop 3) (G.drop 1)
    rw [mergeResults_rounds, List.append_assoc]
    have p1 : (G.take 1 ++ mergeResults (V.drop 3) (G.drop 1)).Perm
        (G.take 1 ++ (V.drop 3 ++ G.drop 1)) := ih.append_left _
    have p2 : (G.take 1 ++ (V.drop 3 ++ G.drop 1)).Perm
        (V.drop 3 ++ (G.take 1 ++ G.drop 1)) := List.perm_append_comm_assoc _ _ _
    have p3 := (p1.trans p2).append_left (V.take 3)
    have e1 : V.take 3 ++ (V.drop 3 ++ (G.take 1 ++ G.drop 1)) = V ++ G := by
      rw [← List.append_assoc, List.take_append_drop, List.take_append_drop]
    exact e1 ▸ p3
termination_by V.length + G.length
decreasing_by exact hlt

theorem mergeResults_sublist (V G : List SearchResult) :
    V.Sublist (mergeResults V G) ∧ G.Sublist (mergeResults V G) := by
  by_cases h : V = [] ∧ G = []
  · obtain ⟨h1, h2⟩ := h
    subst h1; subst h2
    exact ⟨List.Sublist.refl _, List.Sublist.refl _⟩
  · have hlt : (V.drop 3).length + (G.drop 1).length < V.length + G.length := by
      rcases V with - | ⟨v, V'⟩ <;> rcases G with - | ⟨g, G'⟩ <;>
        simp_all [List.length_drop] <;> omega
    obtain ⟨ihV, ihG⟩ := mergeResults_sublist (V.drop 3) (G.drop 1)
    rw [mergeResults_rounds, List.append_assoc]
    constructor
    · conv_lhs => rw [← List.take_append_drop 3 V]
      exact List.Sublist.append (List.Sublist.refl _)
        (ihV.trans (List.sublist_append_right _ _))
    · conv_lhs => rw [← List.take_append_drop 1 G]
      exact (List.Sublist.append (List.Sublist.refl (G.take 1)) ihG).trans
        (List.sublist_append_right _ _)
termination_by V.length + G.length
decreasing_by exact hlt

theorem claim_C3 :
    (∀ V : List SearchResult, mergeResults V [] = V) ∧
    (∀ V G : List SearchResult,
      mergeResults V G = V.take 3 ++ G.take 1 ++ mergeResults (V.drop 3) (G.drop 1)) ∧
    (∀ V G : List SearchResult,
      (mergeResults V G).Perm (V ++ G) ∧
        V.Sublist (mergeResults V G) ∧ G.Sublist (mergeResults V G)) ∧
    (∀ v1 v2 v3 v4 v5 g1 g2 : SearchResult,
      mergeResults [v1, v2, v3, v4, v5] [g1, g2] = [v1, v2, v3, g1, v4, v5, g2]) := by
  refine ⟨fun V => rfl, mergeResults_rounds,
    fun V G => ⟨mergeResults_perm V G, mergeResults_sublist V G⟩,
    fun v1 v2 v3 v4 v5 g1 g2 => ?_⟩
  rw [mergeResults_rounds, mergeResults_rounds, mergeResults_rounds]
  rfl

/-! ### Claim C4: parent expansion -/

theorem lookup_mem {α β : Type} [BEq α] [LawfulBEq α] {l : List (α × β)} {k : α}
    {v : β} (h : l.lookup k = some v) : (k, v) ∈ l := by
  induction l with
  | nil => simp [List.lookup] at h
  | cons kv l ih =>
    obtain ⟨k1, v1⟩ := kv
    simp only [List.lookup] at h
    by_cases he : k = k1
    · subst he
      simp only [beq_self_eq_true, if_true, Option.some.injEq] at h
      subst h
      exact List.mem_cons_self _ _
    · have : (k == k1) = false := beq_false_of_ne he
      rw [this] at h
      exact List.mem_cons_of_mem _ (ih h)

theorem expandGo_fst (gp : String → Option RawRecord) :
    ∀ (srs : List SearchResult) (raws : List RawRecord)
      (seen : List (String × Option RawRecord)) (log : List String),
      (∀ kv ∈ seen, kv.2 = gp kv.1) →
      (expandGo gp srs raws seen log).1 = (srs.zip raws).map (expandStep gp) := by
  intro srs
  induction srs with
  | nil => intro raws seen log hinv; rfl
  | cons sr srs ih =>
    intro raws seen log hinv
    rcases raws with - | ⟨raw, raws⟩
    · rfl
    · simp only [expandGo]
      by_cases hc : raw.parent_id ≠ "" ∧ raw.is_parent = false
      · rw [if_pos hc]
        have hinv' : ∀ kv ∈ (if (seen.lookup raw.parent_id).isNone then
            (raw.parent_id, gp raw.parent_id) :: seen else seen), kv.2 = gp kv.1 := by
          split
          · intro kv hkv
            rcases List.mem_cons.mp hkv with h | h
            · subst h; rfl
            · exact hinv kv h
          · exact hinv
        have hlook : (if (seen.lookup raw.parent_id).isNone then
            (raw.parent_id, gp raw.parent_id) :: seen else seen).lookup raw.parent_id
            = some (gp raw.parent_id) := by
          split
          · simp [List.lookup]
          · rename_i hn
            rcases hv : seen.lookup raw.parent_id with - | v
            · rw [hv] at hn; simp at hn
            · exact congrArg some (hinv _ (lookup_mem hv))
        rw [ih _ _ _ hinv']
        simp only [List.zip_cons_cons, List.map_cons]
        congr 1
        rw [hlook]
        unfold expandStep
        rw [if_pos hc]
        rcases gp raw.parent_id with - | p <;> rfl
      · rw [if_neg hc]
        rw [ih _ _ _ hinv]
        simp only [List.zip_cons_cons, List.map_cons]
        congr 1
        unfold expandStep
        rw [if_neg hc]

theorem expandGo_snd (gp : String → Option RawRecord) :
    ∀ (srs : List SearchResult) (raws : List RawRecord)
      (seen : List (String × Option RawRecord)) (log : List String),
      (∀ x ∈ log, (seen.lookup x).isSome) → log.Nodup →
      ((expandGo gp srs raws seen log).2.Nodup ∧
        ∀ q ∈ (expandGo gp srs raws seen log).2,
          q ∈ log ∨ ∃ raw ∈ raws, raw.parent_id = q ∧ q ≠ "" ∧ raw.is_parent = false) := by
  intro srs
  induction srs with
  | nil =>
    intro raws seen log hinv hnd
    simp only [expandGo]
    refine ⟨List.nodup_reverse.mpr hnd, fun q hq => Or.inl ?_⟩
    exact List.mem_reverse.mp hq
  | cons sr srs ih =>
    intro raws seen log hinv hnd
    rcases raws with - | ⟨raw, raws⟩
    · simp only [expandGo]
      refine ⟨List.nodup_reverse.mpr hnd, fun q hq => Or.inl ?_⟩
      exact List.mem_reverse.mp hq
    · simp only [expandGo]
      by_cases hc : raw.parent_id ≠ "" ∧ raw.is_parent = false
      · rw [if_pos hc]
        by_cases hn : (seen.lookup raw.parent_id).isNone
        · have hnewinv : ∀ x ∈ raw.parent_id :: log,
              (((raw.parent_id, gp raw.parent_id) :: seen).lookup x).isSome := by
            intro x hx
            rcases List.mem_cons.mp hx with h | h
            · subst h; simp [List.lookup]
            · simp only [List.lookup]
              split
              · simp
              · exact hinv x h
          have hnotmem : raw.parent_id ∉ log := by
            intro hmem
            have := hinv _ hmem
            rw [Option.isNone_iff_eq_none.mp hn] at this
            simp at this
          have hnewnd : (raw.parent_id :: log).Nodup := by
            exact List.nodup_cons.mpr ⟨hnotmem, hnd⟩
          obtain ⟨h1, h2⟩ := ih raws _ _ hnewinv hnewnd
          simp only [if_pos hn]
          refine ⟨h1, fun q hq => ?_⟩
          rcases h2 q hq with h | h
          · rcases List.mem_cons.mp h with h | h
            · subst h
              exact Or.inr ⟨raw, List.mem_cons_self _ _, rfl, hc.1, hc.2⟩
            · exact Or.inl h
          · obtain ⟨r, hr, hrest⟩ := h
            exact Or.inr ⟨r, List.mem_cons_of_mem _ hr, hrest⟩
        · obtain ⟨h1, h2⟩ := ih raws seen log hinv hnd
          simp only [if_neg hn]
          refine ⟨h1, fun q hq => ?_⟩
          rcases h2 q hq with h | h
          · exact Or.inl h
          · obtain ⟨r, hr, hrest⟩ := h
            exact Or.inr ⟨r, List.mem_cons_of_mem _ hr, hrest⟩
      · rw [if_neg hc]
        obtain ⟨h1, h2⟩ := ih raws seen log hinv hnd
        refine ⟨h1, fun q hq => ?_⟩
        rcases h2 q hq with h | h
        · exact Or.inl h
        · obtain ⟨r, hr, hrest⟩ := h
          exact Or.inr ⟨r, List.mem_cons_of_mem _ hr, hrest⟩

/-- C4: parent expansion acts pointwise on `zip(search_results, raw_results)`
— a non-parent result with a non-empty `parent_id` whose lookup succeeds gets
text `parent_text ++ "\n---\n" ++ child_text` with score and all provenance
fields taken unchanged from the child, every other result passes through
unchanged — and the ordered list of parent ids actually sent to the store has
no duplicates (at most one query per distinct `parent_id` per call), each of
them coming from a non-parent input record with that non-empty `parent_id`. -/
theorem claim_C4 :
    (∀ (gp : String → Option RawRecord) (srs : List SearchResult)
      (raws : List RawRecord),
      expandParents gp srs raws = (srs.zip raws).map (expandStep gp)) ∧
    (∀ (gp : String → Option RawRecord) (srs : List SearchResult)
      (raws : List RawRecord), (expandQueries gp srs raws).Nodup) ∧
    (∀ (gp : String → Option RawRecord) (srs : List SearchResult)
      (raws : List RawRecord), ∀ q ∈ expandQueries gp srs raws,
      ∃ raw ∈ raws, raw.parent_id = q ∧ q ≠ "" ∧ raw.is_parent = false) := by
  refine ⟨fun gp srs raws => ?_, fun gp srs raws => ?_, fun gp srs raws q hq => ?_⟩
  · exact expandGo_fst gp srs raws [] [] (by simp)
  · exact (expandGo_snd gp srs raws [] [] (by simp) List.nodup_nil).1
  · rcases (expandGo_snd gp srs raws [] [] (by simp) List.nodup_nil).2 q hq with h | h
    · simp at h
    · exact h

/-- C4, witness: in a one-child call the store is queried for `"p1"`, and that
query comes from a non-parent record with that non-empty `parent_id`. -/
theorem claim_C4_witness :
    "p1" ∈ expandQueries c4gp c4srs c4raws ∧
      ∃ raw ∈ c4raws, raw.parent_id = "p1" ∧ "p1" ≠ "" ∧ raw.is_parent = false :=
  ⟨by decide, claim_C4.2.2 c4gp c4srs c4raws "p1" (by decide)⟩

/-! ### Claims C8 and C10: the fallback window loop -/

theorem pySlice_nat (words : List String) (a b : Nat) (ha : a ≤ words.length)
    (hb : b ≤ words.length) :
    pySlice words (a : Int) (b : Int) = (words.drop a).take (b - a) := by
  simp only [pySlice]
  rw [if_neg (by omega : ¬((a : Int) < 0)), if_neg (by omega : ¬((b : Int) < 0)),
    min_eq_left (by exact_mod_cast ha : (a : Int) ≤ (words.length : Int)),
    min_eq_left (by exact_mod_cast hb : (b : Int) ≤ (words.length : Int)),
    Int.toNat_natCast, Int.toNat_natCast]

theorem splitWindows_stop {c o : Nat} {words : List String} (fuel : Nat) {s : Int}
    (h : (words.length : Int) ≤ s) :
    splitWindows c o words fuel s = some [] := by
  cases fuel with
  | zero =>
    simp only [splitWindows]
    rw [if_neg (by omega)]
  | succ fuel =>
    simp only [splitWindows]
    rw [if_neg (by omega)]

theorem splitWindows_succ {c o : Nat} {words : List String} (fuel : Nat) {s : Nat}
    (hs : s < words.length) (ho : o ≤ s + c) :
    splitWindows c o words (fuel + 1) (s : Int) =
      (splitWindows c o words fuel
          (if s + c < words.length then ((s + c - o : Nat) : Int)
           else (words.length : Int))).map
        (fun L => (words.drop s).take (min (s + c) words.length - s) :: L) := by
  simp only [splitWindows]
  rw [if_pos (by exact_mod_cast hs : (s : Int) < (words.length : Int))]
  by_cases hlt : s + c < words.length
  · have he : min ((s : Int) + (c : Int)) (words.length : Int) = ((s + c : Nat) : Int) := by
      rw [min_eq_left (by exact_mod_cast le_of_lt hlt)]
      push_cast
      ring
    rw [he, if_pos (by exact_mod_cast hlt : ((s + c : Nat) : Int) < (words.length : Int))]
    rw [if_pos hlt]
    have harg : ((s + c : Nat) : Int) - (o : Int) = ((s + c - o : Nat) : Int) := by
      push_cast [Nat.cast_sub ho]
      ring
    rw [harg]
    have hwin : pySlice words (s : Int) ((s + c : Nat) : Int) =
        (words.drop s).take (min (s + c) words.length - s) := by
      rw [pySlice_nat words s (s + c) (le_of_lt hs) (le_of_lt hlt)]
      congr 1
      omega
    rw [hwin]
  · have he : min ((s : Int) + (c : Int)) (words.length : Int) = (words.length : Int) := by
      rw [min_eq_right]
      have : words.length ≤ s + c := by omega
      exact_mod_cast this
    rw [he, if_neg (by omega : ¬((words.length : Int) < (words.length : Int)))]
    rw [if_neg hlt]
    have hwin : pySlice words (s : Int) ((words.length : Nat) : Int) =
        (words.drop s).take (min (s + c) words.length - s) := by
      rw [pySlice_nat words s words.length (le_of_lt hs) (le_refl _)]
      congr 1
      omega
    rw [hwin]

theorem splitWindows_diverge {c o : Nat} {words : List String} (hco : c ≤ o)
    (hn : c < words.length) :
    ∀ (fuel : Nat) (s : Int), s ≤ 0 → splitWindows c o words fuel s = none := by
  intro fuel
  induction fuel with
  | zero =>
    intro s hs
    simp only [splitWindows]
    rw [if_pos (by
      have : (c : Int) < (words.length : Int) := by exact_mod_cast hn
      omega)]
  | succ fuel ih =>
    intro s hs
    simp only [splitWindows]
    have hcn : (c : Int) < (words.length : Int) := by exact_mod_cast hn
    have hco2 : (c : Int) ≤ (o : Int) := by exact_mod_cast hco
    rw [if_pos (by omega)]
    rw [min_eq_left (by omega : s + (c : Int) ≤ (words.length : Int))]
    rw [if_pos (by omega : s + (c : Int) < (words.length : Int))]
    rw [ih (s + (c : Int) - (o : Int)) (by omega)]
    rfl

theorem mem_slice {words : List String} {s k i : Nat} (hi : i < words.length)
    (h1 : s ≤ i) (h2 : i - s < k) :
    words.get ⟨i, hi⟩ ∈ (words.drop s).take k := by
  have hb1 : i - s < ((words.drop s).take k).length := by
    simp only [List.length_take, List.length_drop]
    omega
  have he : ((words.drop s).take k).get ⟨i - s, hb1⟩ = words.get ⟨i, hi⟩ := by
    simp only [List.get_eq_getElem, List.getElem_take, List.getElem_drop]
    have hidx : s + (i - s) = i := by omega
    simp only [hidx]
  rw [← he]
  exact List.get_mem _ _ _

theorem splitWindows_spec {c o : Nat} (hoc : o < c) (words : List String) :
    ∀ (fuel s : Nat), words.length ≤ s + fuel →
      ∃ L, splitWindows c o words fuel (s : Int) = some L ∧
        (L = [] ↔ words.length ≤ s) ∧
        (∀ w ∈ L, w.length ≤ c) ∧
        (L.head? = if s < words.length then
            some ((words.drop s).take (min c (words.length - s))) else none) ∧
        L.Chain' (fun w1 w2 => w1.drop (w1.length - o) = w2.take o) ∧
        (∀ i, s ≤ i → ∀ hi : i < words.length, ∃ w ∈ L, words.get ⟨i, hi⟩ ∈ w) := by
  intro fuel
  induction fuel with
  | zero =>
    intro s hs
    refine ⟨[], splitWindows_stop 0 (by exact_mod_cast (by omega : words.length ≤ s)),
      by simp; omega, by simp, ?_, List.chain'_nil, ?_⟩
    · rw [if_neg (by omega)]
      rfl
    · intro i h1 hi
      omega
  | succ fuel ih =>
    intro s hs
    by_cases hend : words.length ≤ s
    · refine ⟨[], splitWindows_stop _ (by exact_mod_cast hend),
        by simp; omega, by simp, ?_, List.chain'_nil, ?_⟩
      · rw [if_neg (by omega)]
        rfl
      · intro i h1 hi
        omega
    · push_neg at hend
      have hostep : o ≤ s + c := by omega
      by_cases hlt : s + c < words.length
      · have hs' : words.length ≤ (s + c - o) + fuel := by omega
        obtain ⟨L', hL', hnil', hlen', hhead', hchain', hcov'⟩ := ih (s + c - o) hs'
        have hcomp : splitWindows c o words (fuel + 1) (s : Int) =
            some ((words.drop s).take (min (s + c) words.length - s) :: L') := by
          rw [splitWindows_succ fuel hend hostep, if_pos hlt, hL']
          rfl
        refine ⟨_, hcomp, by simp; omega, ?_, ?_, ?_, ?_⟩
        · intro w hw
          rcases List.mem_cons.mp hw with h | h
          · subst h
            simp only [List.length_take, List.length_drop]
            omega
          · exact hlen' w h
        · rw [if_pos hend]
          simp only [List.head?_cons]
          congr 2
          omega
        · rw [List.chain'_cons']
          refine ⟨?_, hchain'⟩
          intro w2 hw2
          rw [hhead', if_pos (by omega : s + c - o < words.length)] at hw2
          obtain rfl : w2 = (words.drop (s + c - o)).take
              (min c (words.length - (s + c - o))) := by
            have := hw2
            simp only [Option.mem_def, Option.some.injEq] at this
            exact this.symm
          have hmin1 : min (s + c) words.length - s = c := by omega
          rw [hmin1]
          have hwl : ((words.drop s).take c).length = c := by
            simp only [List.length_take, List.length_drop]
            omega
          rw [hwl, List.drop_take, List.drop_drop, List.take_take]
          have e1 : s + (c - o) = s + c - o := by omega
          have e2 : c - (c - o) = o := by omega
          have e3 : min o (min c (words.length - (s + c - o))) = o := by omega
          rw [e1, e2, e3]
        · intro i h1 hi
          by_cases hic : i < s + c
          · exact ⟨_, List.mem_cons_self _ _, mem_slice hi h1 (by omega)⟩
          · obtain ⟨w, hw, hmem⟩ := hcov' i (by omega) hi
            exact ⟨w, List.mem_cons_of_mem _ hw, hmem⟩
      · have hcomp : splitWindows c o words (fuel + 1) (s : Int) =
            some [(words.drop s).take (min (s + c) words.length - s)] := by
          rw [splitWindows_succ fuel hend hostep, if_neg hlt,
            splitWindows_stop fuel (le_refl _)]
          rfl
        refine ⟨_, hcomp, by simp; omega, ?_, ?_, ?_, ?_⟩
        · intro w hw
          obtain rfl : w = (words.drop s).take (min (s + c) words.length - s) := by
            simpa using hw
          simp only [List.length_take, List.length_drop]
          omega
        · rw [if_pos hend]
          simp only [List.head?_cons]
          congr 2
          omega
        · exact List.chain'_singleton _
        · intro i h1 hi
          refine ⟨_, List.mem_cons_self _ _, mem_slice hi h1 ?_⟩
          omega

set_option maxRecDepth 10000 in
/-- C8: when the word count exceeds `child_size`, the fallback splitter
produces (deterministically, with the input's word count as sufficient
iteration budget) a non-empty window list in which every window has at most
`child_size` words and each pair of consecutive windows shares exactly
`overlap` words (the last `overlap` words of one window are the first
`overlap` words of the next); with `child_size = 300`, `overlap = 50`, a
1000-word text yields exactly ⌈(1000-50)/(300-50)⌉ = 4 windows. -/
theorem claim_C8 :
    (∀ (c o : Nat) (text : String), o < c → c < (pyWords text).length →
      ∃ L, splitWindows c o (pyWords text) (pyWords text).length 0 = some L ∧
        tokenSplit c o text = some (L.map joinSp) ∧
        L ≠ [] ∧
        (∀ w ∈ L, w.length ≤ c) ∧
        L.Chain' (fun w1 w2 => w1.drop (w1.length - o) = w2.take o)) ∧
    (splitWindows 300 50 (List.replicate 1000 "w") 1000 0).map List.length = some 4 := by
  constructor
  · intro c o text hoc hlen
    obtain ⟨L, hL, hnil, hlenle, hhead, hchain, hcov⟩ :=
      splitWindows_spec hoc (pyWords text) (pyWords text).length 0 (by omega)
    have hL0 : splitWindows c o (pyWords text) (pyWords text).length 0 = some L := by
      simpa using hL
    refine ⟨L, hL0, ?_, fun h => absurd (hnil.mp h) (by omega), hlenle, hchain⟩
    simp only [tokenSplit]
    rw [if_neg (by omega), hL0]
    rfl
  · decide

/-- C8, witness: with `child_size = 2`, `overlap = 1` the nine-character text
`"a b c"` (three words) splits into overlapping windows as described. -/
theorem claim_C8_witness :
    ∃ L, splitWindows 2 1 (pyWords "a b c") (pyWords "a b c").length 0 = some L ∧
      tokenSplit 2 1 "a b c" = some (L.map joinSp) ∧
      L ≠ [] ∧
      (∀ w ∈ L, w.length ≤ 2) ∧
      L.Chain' (fun w1 w2 => w1.drop (w1.length - 1) = w2.take 1) :=
  claim_C8.1 2 1 "a b c" (by decide) (by decide)

/-- C10: with `overlap < child_size` the shared window loop of `_token_split`
and `_ensure_child_size` terminates within `words.length` iterations and
returns a non-empty list of windows jointly covering every word of the input
(both wrappers are the same function and return a value); this precondition is
necessary: with `overlap ≥ child_size` and more than `child_size` words the
loop start never advances past the end, and no iteration budget whatsoever
makes the loop finish. -/
theorem claim_C10 :
    (∀ (c o : Nat) (words : List String), o < c →
      ∃ L, splitWindows c o words words.length 0 = some L ∧
        (words ≠ [] → L ≠ []) ∧
        (∀ i, ∀ hi : i < words.length, ∃ w ∈ L, words.get ⟨i, hi⟩ ∈ w)) ∧
    (∀ (c o : Nat) (text : String), o < c →
      (tokenSplit c o text).isSome ∧ (ensureChildSize c o text).isSome ∧
        tokenSplit c o text = ensureChildSize c o text) ∧
    (∀ (c o : Nat) (words : List String), c ≤ o → c < words.length →
      ∀ fuel : Nat, splitWindows c o words fuel 0 = none) := by
  refine ⟨fun c o words hoc => ?_, fun c o text hoc => ?_, fun c o words hco hn fuel => ?_⟩
  · obtain ⟨L, hL, hnil, hlenle, hhead, hchain, hcov⟩ :=
      splitWindows_spec hoc words words.length 0 (by omega)
    have hL0 : splitWindows c o words words.length 0 = some L := by simpa using hL
    refine ⟨L, hL0, fun hw hLnil => ?_, fun i hi => hcov i (by omega) hi⟩
    have := hnil.mp hLnil
    have : words.length = 0 := by omega
    exact hw (List.length_eq_zero.mp this)
  · refine ⟨?_, ?_, rfl⟩ <;>
    · simp only [tokenSplit, ensureChildSize]
      split
      · simp
      · rename_i hgt
        obtain ⟨L, hL, -⟩ :=
          splitWindows_spec hoc (pyWords text) (pyWords text).length 0 (by omega)
        have hL0 : splitWindows c o (pyWords text) (pyWords text).length 0 = some L := by
          simpa using hL
        rw [hL0]
        simp
  · exact splitWindows_diverge hco hn fuel 0 (le_refl 0)

/-- C10, witness: `child_size = 2`, `overlap = 1` on three words terminates
with covering windows, and `child_size = 1`, `overlap = 1` on two words never
finishes, e.g. within budget 5. -/
theorem claim_C10_witness :
    (∃ L, splitWindows 2 1 ["a", "b", "c"] (["a", "b", "c"] : List String).length 0 = some L ∧
      ((["a", "b", "c"] : List String) ≠ [] → L ≠ []) ∧
      (∀ i, ∀ hi : i < (["a", "b", "c"] : List String).length,
        ∃ w ∈ L, (["a", "b", "c"] : List String).get ⟨i, hi⟩ ∈ w)) ∧
    splitWindows 1 1 ["a", "b"] 5 0 = none :=
  ⟨claim_C10.1 2 1 ["a", "b", "c"] (by decide),
   claim_C10.2.2 1 1 ["a", "b"] (by decide) (by decide) 5⟩

/-! ### Claim C6: the structure splitter and character preservation -/

theorem nonWsChars_append (a b : List Char) :
    nonWsChars (a ++ b) = nonWsChars a ++ nonWsChars b := by
  simp [nonWsChars]

theorem nonWsChars_stripChars (cs : List Char) :
    nonWsChars (stripChars cs) = nonWsChars cs := by
  simp only [nonWsChars]
  exact filter_nonws_stripChars cs

theorem nonWsChars_of_strip_empty {cs : List Char}
    (h : pyStrip (String.mk cs) = "") : nonWsChars cs = [] := by
  have h2 : stripChars cs = [] := congrArg String.data h
  rw [← nonWsChars_stripChars, h2]
  rfl

theorem buildSections_nonws (ms : List (List Char × Nat × List Char)) :
    ∀ (tail : List Char) (ch se : String),
      nonWsChars (((buildSections ms tail ch se).map
          (fun sec => sec.text.toList)).flatten) =
        nonWsChars ((ms.map (fun m => m.1)).flatten ++ tail) := by
  induction ms with
  | nil =>
    intro tail ch se
    simp only [buildSections, List.map_nil, List.flatten_nil, List.nil_append]
    split
    · rename_i hrem
      simp only [List.map_nil, List.flatten_nil]
      exact (nonWsChars_of_strip_empty hrem).symm
    · rename_i hrem
      simp only [List.map_cons, List.map_nil, List.flatten_cons, List.flatten_nil,
        List.append_nil]
      exact nonWsChars_stripChars tail
  | cons m ms ih =>
    intro tail ch se
    obtain ⟨pre, lvl, title⟩ := m
    simp only [buildSections, List.map_cons, List.flatten_cons, List.append_assoc]
    rw [nonWsChars_append]
    split
    · rename_i hpre
      rw [nonWsChars_of_strip_empty hpre, List.nil_append]
      split <;> exact ih tail _ _
    · rename_i hpre
      simp only [List.map_cons, List.flatten_cons]
      rw [nonWsChars_append]
      have hfirst : nonWsChars (pyStrip (String.mk pre)).toList = nonWsChars pre := by
        rw [toList_pyStrip]
        show nonWsChars (stripChars pre) = nonWsChars pre
        exact nonWsChars_stripChars pre
      rw [hfirst]
      congr 1
      split <;> exact ih tail _ _

/-- C6, counterexample: on `"# Title\nbody"` the splitter returns the single
segment `("body", "Title", "")`, and concatenating the returned segment texts
does *not* recover every non-whitespace character of the input: the characters
of the heading line (`#`, `Title`) are consumed as labels, not kept as text. -/
theorem claim_C6_counterexample :
    splitByStructure "# Title\nbody" = [⟨"body", "Title", ""⟩] ∧
    ¬ (nonWsChars (((splitByStructure "# Title\nbody").map
        (fun sec => sec.text.toList)).flatten) =
      nonWsChars ("# Title\nbody").toList) := by
  constructor
  · decide
  · decide

/-- C6 (amended): the ordered segments partition the text *between and around
heading matches* with no loss or duplication of non-whitespace characters:
concatenating the returned segment texts in order recovers exactly the
non-whitespace characters of the input that lie outside heading matches
(heading characters become chapter/section labels instead), except in the
degenerate case where nothing but headings and whitespace remains, in which
case the documented fallback returns the whole text as one segment. -/
theorem claim_C6_amended :
    ∀ text : String,
      (rawSections text ≠ [] →
        nonWsChars (((splitByStructure text).map
            (fun sec => sec.text.toList)).flatten) =
          nonWsChars (headerGaps text)) ∧
      (rawSections text = [] → splitByStructure text = [⟨text, "", ""⟩]) := by
  intro text
  constructor
  · intro hne
    rw [splitByStructure, if_neg hne]
    simp only [rawSections, headerGaps]
    exact buildSections_nonws _ _ _ _
  · intro he
    rw [splitByStructure, if_pos he]

/-- C6, witness: on `"# Title\nbody"` (which has at least one raw section) the
amended character accounting holds. -/
theorem claim_C6_amended_witness :
    nonWsChars (((splitByStructure "# Title\nbody").map
        (fun sec => sec.text.toList)).flatten) =
      nonWsChars (headerGaps "# Title\nbody") :=
  (claim_C6_amended "# Title\nbody").1 (by decide)

/-! ### Claims C1 and C2: the chunking pipeline -/

theorem mergeGo_ne_nil (sim : Nat → Float) (t : Float) :
    ∀ (rest current : List String) (i : Nat), mergeGo sim t rest current i ≠ [] := by
  intro rest
  induction rest with
  | nil => intro current i; simp [mergeGo]
  | cons sHead rest ih =>
    intro current i
    simp only [mergeGo]
    split
    · exact ih _ _
    · simp

theorem mergeBySimilarity_ne_nil (sentences : List String) (sim : Nat → Float)
    (t : Float) (h : sentences ≠ []) : mergeBySimilarity sentences sim t ≠ [] := by
  rcases sentences with - | ⟨s0, rest⟩
  · exact absurd rfl h
  · exact mergeGo_ne_nil sim t rest [s0] 1

theorem tokenSplit_some {c o : Nat} (hoc : o < c) (text : String) :
    ∃ segs, tokenSplit c o text = some segs ∧ segs ≠ [] := by
  simp only [tokenSplit]
  split
  · exact ⟨[text], rfl, by simp⟩
  · rename_i hgt
    obtain ⟨L, hL, hnil, -⟩ :=
      splitWindows_spec hoc (pyWords text) (pyWords text).length 0 (by omega)
    have hL0 : splitWindows c o (pyWords text) (pyWords text).length 0 = some L := by
      simpa using hL
    rw [hL0]
    refine ⟨L.map joinSp, rfl, ?_⟩
    simp only [ne_eq, List.map_eq_nil_iff]
    intro h
    exact absurd (hnil.mp h) (by omega)

theorem ensureChildSize_eq_tokenSplit (c o : Nat) (text : String) :
    ensureChildSize c o text = tokenSplit c o text := rfl

theorem semanticSplit_some (s : Settings)
    (simOracle : Option (List String → Nat → Float)) (text : String)
    (hoc : s.chunk_overlap < s.chunk_size_search) :
    ∃ segs, semanticSplit s simOracle text = some segs ∧ segs ≠ [] := by
  simp only [semanticSplit]
  split
  · rename_i hle
    refine ⟨_, rfl, ?_⟩
    split
    · simp
    · rename_i hne
      simpa [List.isEmpty_iff] using hne
  · rename_i hgt
    rcases simOracle with - | sim
    · exact tokenSplit_some hoc text
    · refine ⟨_, rfl, mergeBySimilarity_ne_nil _ _ _ ?_⟩
      intro h
      rw [h] at hgt
      simp at hgt

theorem chunksFromTexts_fields (pid : Nat) (src : String) (page : Option Int)
    (chp se : String) :
    ∀ (texts : List String) (ctr : Nat),
      ∀ ch ∈ (chunksFromTexts pid src page chp se texts ctr).1,
        ch.parent_id = some pid ∧ ch.is_parent = false := by
  intro texts
  induction texts with
  | nil => intro ctr ch hch; simp [chunksFromTexts] at hch
  | cons t ts ih =>
    intro ctr ch hch
    simp only [chunksFromTexts] at hch
    rcases List.mem_cons.mp hch with h | h
    · subst h; exact ⟨rfl, rfl⟩
    · exact ih (ctr + 1) ch h

theorem mkChildren_some (s : Settings)
    (hoc : s.chunk_overlap < s.chunk_size_search) (pid : Nat) (src : String)
    (page : Option Int) (chp se : String) :
    ∀ (segs : List String) (ctr : Nat),
      ∃ cs ctr', mkChildren s pid src page chp se segs ctr = some (cs, ctr') ∧
        ∀ ch ∈ cs, ch.parent_id = some pid ∧ ch.is_parent = false := by
  intro segs
  induction segs with
  | nil => intro ctr; exact ⟨[], ctr, rfl, by simp⟩
  | cons seg rest ih =>
    intro ctr
    obtain ⟨parts, hparts, -⟩ := tokenSplit_some hoc seg
    obtain ⟨cs2, ctr2, hrec, hrec2⟩ :=
      ih (chunksFromTexts pid src page chp se parts ctr).2
    refine ⟨(chunksFromTexts pid src page chp se parts ctr).1 ++ cs2, ctr2, ?_, ?_⟩
    · simp only [mkChildren, ensureChildSize_eq_tokenSplit, hparts, Option.bind_eq_bind,
        Option.some_bind, hrec]
    · intro ch hch
      rcases List.mem_append.mp hch with h | h
      · exact chunksFromTexts_fields pid src page chp se parts ctr ch h
      · exact hrec2 ch h

theorem processGroups_some (s : Settings)
    (hoc : s.chunk_overlap < s.chunk_size_search) (src : String)
    (page : Option Int) (chp se : String) :
    ∀ (gs : List (List String)) (ctr : Nat),
      ∃ l ctr', processGroups s src page chp se gs ctr = some (l, ctr') ∧
        (gs ≠ [] → l ≠ []) ∧ chunkProp l := by
  intro gs
  induction gs with
  | nil =>
    intro ctr
    exact ⟨[], ctr, rfl, fun h => absurd rfl h, by intro ch hch; simp at hch⟩
  | cons g rest ih =>
    intro ctr
    obtain ⟨cs, ctr1, hmk, hcs⟩ := mkChildren_some s hoc ctr src page chp se g (ctr + 1)
    obtain ⟨l2, ctr2, hrec, -, hprop2⟩ := ih ctr1
    set parent : Chunk :=
      { text := joinSp g, chunk_id := ctr, parent_id := none, source_file := src,
        page_num := page, chapter := chp, sect := se, is_parent := true } with hpdef
    refine ⟨parent :: (cs ++ l2), ctr2, ?_, fun h => by simp, ?_⟩
    · simp only [processGroups, hmk, Option.bind_eq_bind, Option.some_bind, hrec]
    · intro ch hch
      rcases List.mem_cons.mp hch with h | h
      · subst h
        refine ⟨fun h => rfl, fun h => ?_⟩
        simp at h
      · rcases List.mem_append.mp h with h | h
        · obtain ⟨h1, h2⟩ := hcs ch h
          refine ⟨fun hp => by rw [hp] at h2; simp at h2, fun hp => ?_⟩
          exact ⟨parent, List.mem_cons_self _ _, rfl, h1⟩
        · obtain ⟨h1, h2⟩ := hprop2 ch h
          refine ⟨h1, fun hp => ?_⟩
          obtain ⟨p, hp1, hp2, hp3⟩ := h2 hp
          exact ⟨p, List.mem_cons_of_mem _ (List.mem_append_right _ hp1), hp2, hp3⟩

theorem createParentChild_some (s : Settings)
    (hoc : s.chunk_overlap < s.chunk_size_search) (segs : List String)
    (hsegs : segs ≠ []) (src : String) (page : Option Int) (chp se : String)
    (ctr : Nat) :
    ∃ l ctr', createParentChild s segs src page chp se ctr = some (l, ctr') ∧
      l ≠ [] ∧ chunkProp l := by
  have key : ∀ (r current : List String) (cwc : Nat), current ≠ [] →
      groupGo s.chunk_size_parent r current cwc ≠ [] := by
    intro r
    induction r with
    | nil => intro current cwc hc; simp [groupGo, hc]
    | cons x xs ih =>
      intro current cwc hc
      simp only [groupGo]
      split
      · simp
      · exact ih (current ++ [x]) (cwc + (pyWords x).length) (by simp)
  have hg : groupSegments s.chunk_size_parent segs ≠ [] := by
    simp only [groupSegments]
    rcases segs with - | ⟨seg, rest⟩
    · exact absurd rfl hsegs
    · simp only [groupGo]
      split
      · rename_i hcond
        exact absurd hcond.2 (by simp)
      · exact key rest ([] ++ [seg]) (0 + (pyWords seg).length) (by simp)
  obtain ⟨l, ctr', hpg, hne, hprop⟩ :=
    processGroups_some s hoc src page chp se (groupSegments s.chunk_size_parent segs) ctr
  exact ⟨l, ctr', hpg, hne hg, hprop⟩

theorem chunkProp_append {A B : List Chunk} (hA : chunkProp A) (hB : chunkProp B) :
    chunkProp (A ++ B) := by
  intro ch hch
  rcases List.mem_append.mp hch with h | h
  · obtain ⟨h1, h2⟩ := hA ch h
    refine ⟨h1, fun hp => ?_⟩
    obtain ⟨p, hp1, hp2, hp3⟩ := h2 hp
    exact ⟨p, List.mem_append_left _ hp1, hp2, hp3⟩
  · obtain ⟨h1, h2⟩ := hB ch h
    refine ⟨h1, fun hp => ?_⟩
    obtain ⟨p, hp1, hp2, hp3⟩ := h2 hp
    exact ⟨p, List.mem_append_right _ hp1, hp2, hp3⟩

theorem chunkProp_map_ctx {l : List Chunk} (md : DocMetadata)
    (h : chunkProp l) :
    chunkProp (l.map (fun c => { c with context_prefix := generateContextPrefix c md })) := by
  intro ch hch
  obtain ⟨c, hc, rfl⟩ := List.mem_map.mp hch
  obtain ⟨h1, h2⟩ := h c hc
  refine ⟨h1, fun hp => ?_⟩
  obtain ⟨p, hp1, hp2, hp3⟩ := h2 hp
  exact ⟨{ p with context_prefix := generateContextPrefix p md },
    List.mem_map.mpr ⟨p, hp1, rfl⟩, hp2, hp3⟩

theorem processSections_some (s : Settings)
    (simOracle : Option (List String → Nat → Float)) (md : DocMetadata)
    (hoc : s.chunk_overlap < s.chunk_size_search) :
    ∀ (secs : List StructSection) (ctr : Nat),
      ∃ l, processSections s simOracle md secs ctr = some l ∧
        ((∃ sec ∈ secs, pyStrip sec.text ≠ "") → l ≠ []) ∧ chunkProp l := by
  intro secs
  induction secs with
  | nil =>
    intro ctr
    refine ⟨[], rfl, fun hex => ?_, by intro ch hch; simp at hch⟩
    obtain ⟨sec, hsec, -⟩ := hex
    simp at hsec
  | cons sec rest ih =>
    intro ctr
    by_cases hblank : pyStrip sec.text = ""
    · obtain ⟨l, hl, hne, hprop⟩ := ih ctr
      refine ⟨l, ?_, fun hex => ?_, hprop⟩
      · simp only [processSections, if_pos hblank]
        exact hl
      · obtain ⟨sec', hsec', hsec'ne⟩ := hex
        rcases List.mem_cons.mp hsec' with h | h
        · subst h; exact absurd hblank hsec'ne
        · exact hne ⟨sec', h, hsec'ne⟩
    · obtain ⟨segs, hsegs, hsegsne⟩ := semanticSplit_some s simOracle sec.text hoc
      obtain ⟨pc, ctr', hcpc, hpcne, hpcprop⟩ :=
        createParentChild_some s hoc segs hsegsne md.source_file md.page_num
          sec.chapter sec.sect ctr
      obtain ⟨tail, htail, -, htailprop⟩ := ih ctr'
      refine ⟨pc.map (fun c => { c with context_prefix := generateContextPrefix c md })
        ++ tail, ?_, fun hex => ?_, ?_⟩
      · simp only [processSections, if_neg hblank, hsegs, hcpc, htail,
          Option.bind_eq_bind, Option.some_bind]
      · simp only [ne_eq, List.append_eq_nil, List.map_eq_nil_iff, not_and]
        intro hpc
        exact absurd hpc hpcne
      · exact chunkProp_append (chunkProp_map_ctx md hpcprop) htailprop

theorem buildSections_nonblank :
    ∀ (ms : List (List Char × Nat × List Char)) (tail : List Char) (ch se : String),
      ∀ sec ∈ buildSections ms tail ch se, pyStrip sec.text ≠ "" := by
  intro ms
  induction ms with
  | nil =>
    intro tail ch se sec hsec
    simp only [buildSections] at hsec
    split at hsec
    · simp at hsec
    · rename_i hrem
      obtain rfl : sec = ⟨pyStrip (String.mk tail), ch, se⟩ := by simpa using hsec
      show pyStrip (pyStrip (String.mk tail)) ≠ ""
      rw [pyStrip_idem]
      exact hrem
  | cons m ms ih =>
    intro tail ch se sec hsec
    obtain ⟨pre, lvl, title⟩ := m
    simp only [buildSections] at hsec
    split at hsec
    · split at hsec
      · exact ih tail _ _ sec hsec
      · exact ih tail _ _ sec hsec
    · rename_i hpre
      rcases List.mem_cons.mp hsec with h | h
      · subst h
        show pyStrip (pyStrip (String.mk pre)) ≠ ""
        rw [pyStrip_idem]
        exact hpre
      · split at h
        · exact ih tail _ _ sec h
        · exact ih tail _ _ sec h

theorem splitByStructure_exists_nonblank (text : String)
    (h : pyStrip text ≠ "") :
    ∃ sec ∈ splitByStructure text, pyStrip sec.text ≠ "" := by
  by_cases hr : rawSections text = []
  · rw [splitByStructure, if_pos hr]
    exact ⟨⟨text, "", ""⟩, List.mem_singleton.mpr rfl, h⟩
  · rw [splitByStructure, if_neg hr]
    obtain ⟨sec, more, hcase⟩ := List.exists_cons_of_ne_nil hr
    have hmem : sec ∈ rawSections text := by
      rw [hcase]
      exact List.mem_cons_self _ _
    refine ⟨sec, hmem, ?_⟩
    have hmem2 : sec ∈ buildSections (scanText text.toList true).1
        (scanText text.toList true).2 "" "" := hmem
    exact buildSections_nonblank _ _ _ _ sec hmem2

/-- C1: under the (necessary, cf. C10) configuration `overlap < child_size`,
`chunk_document` returns a value for every input text, metadata and
sentence-similarity oracle, and the returned chunk list is empty exactly when
the text is blank (whitespace-only) and non-empty whenever the text contains
at least one non-whitespace character. -/
theorem claim_C1 (s : Settings) (simOracle : Option (List String → Nat → Float))
    (text : String) (md : DocMetadata)
    (hoc : s.chunk_overlap < s.chunk_size_search) :
    ∃ l, chunkDocument s simOracle text md = some l ∧
      (l ≠ [] ↔ ∃ ch ∈ text.toList, isPyWs ch = false) := by
  by_cases hblank : pyStrip text = ""
  · refine ⟨[], by simp [chunkDocument, hblank], ?_⟩
    simp only [ne_eq, not_true_eq_false, false_iff]
    intro ⟨ch, hch, hws⟩
    have := (pyStrip_eq_empty_iff text).mp hblank ch hch
    rw [this] at hws
    simp at hws
  · obtain ⟨l, hl, hne, -⟩ :=
      processSections_some s simOracle md hoc (splitByStructure text) 0
    refine ⟨l, by simp [chunkDocument, hblank, hl], ?_⟩
    have hlne : l ≠ [] := hne (splitByStructure_exists_nonblank text hblank)
    simp only [hlne, ne_eq, not_false_eq_true, true_iff]
    by_contra hnone
    push_neg at hnone
    exact hblank ((pyStrip_eq_empty_iff text).mpr (by
      intro c hc
      have := hnone c hc
      simpa using this))

/-- C1, witness: `"hello world"` with default settings and no embedding model
produces a non-empty chunk list (and the text has a non-whitespace
character). -/
theorem claim_C1_witness :
    ∃ l, chunkDocument {} none "hello world" {} = some l ∧
      (l ≠ [] ↔ ∃ ch ∈ "hello world".toList, isPyWs ch = false) :=
  claim_C1 {} none "hello world" {} (by decide)

/-- C2: in any list returned by `chunk_document` (for any settings with
`overlap < child_size`, any similarity oracle, text and metadata), every chunk
with `is_parent = false` has a `parent_id` equal to the `chunk_id` of some
chunk with `is_parent = true` in the same list, and every chunk with
`is_parent = true` has no `parent_id`. -/
theorem claim_C2 (s : Settings) (simOracle : Option (List String → Nat → Float))
    (text : String) (md : DocMetadata) (l : List Chunk)
    (hoc : s.chunk_overlap < s.chunk_size_search)
    (hl : chunkDocument s simOracle text md = some l) :
    ∀ ch ∈ l, (ch.is_parent = true → ch.parent_id = none) ∧
      (ch.is_parent = false →
        ∃ p ∈ l, p.is_parent = true ∧ ch.parent_id = some p.chunk_id) := by
  by_cases hblank : pyStrip text = ""
  · have : l = [] := by
      rw [chunkDocument, if_pos hblank] at hl
      simpa using hl.symm
    subst this
    intro ch hch
    simp at hch
  · obtain ⟨l', hl', -, hprop⟩ :=
      processSections_some s simOracle md hoc (splitByStructure text) 0
    rw [chunkDocument, if_neg hblank, hl'] at hl
    obtain rfl : l' = l := by simpa using hl
    exact hprop

/-- C2, witness: for `"hello world"` the returned list is one parent and one
child, and the child's `parent_id` is the parent's `chunk_id`. -/
theorem claim_C2_witness :
    (c2child.is_parent = false →
      ∃ p ∈ c2chunks, p.is_parent = true ∧ c2child.parent_id = some p.chunk_id) ∧
    chunkDocument {} none "hello world" {} = some c2chunks :=
  ⟨(claim_C2 {} none "hello world" {} c2chunks (by decide) (by decide) c2child
      (by decide)).2,
   by decide⟩
